import Mathlib

/-!
Shallow embedding of the incremental filter & completion engine of
`sprinter` (src/main.c).  Strings are modelled as `List Char`, C string
pointers returned from search functions as `Option Nat` offsets, and the
GTK-driven stateful parts as explicit state-passing functions.  Each
definition mirrors one C function of the source; theorems below settle the
spec claims against these definitions.
-/

set_option maxHeartbeats 1000000

namespace Sprinter

/-- C `toupper` restricted to single-byte characters: maps `'a'..'z'` to
`'A'..'Z'` and leaves everything else unchanged. -/
def ctoupper (c : Char) : Char :=
  if 'a' ≤ c ∧ c ≤ 'z' then Char.ofNat (c.toNat - 32) else c

mutual

/-- Embedding of `match_tokens` (src/main.c, doc revision at lines
1303-1325): returns the offset in `haystack` of the first position at which
the whole `needle` (space-separated tokens, in order, case-insensitive)
matches, or `none`.  The outer `for (h = haystack; *h; ++h)` loop becomes
recursion on the haystack; the inner greedy loop is `tryAt`. -/
def matchTokens : List Char → List Char → Option Nat
  | _, [] => some 0
  | [], _ :: _ => none
  | h :: hs, n :: ns =>
      if tryAt (h :: hs) (n :: ns) then some 0
      else (matchTokens hs (n :: ns)).map (· + 1)
termination_by hay nee => (nee.length, hay.length, 1)

/-- Inner loop of `match_tokens`: greedy anchored attempt at the current
haystack position.  On a space in the needle it recursively searches the
remaining needle anywhere at or after the current haystack position; the
attempt succeeds when the needle is exhausted. -/
def tryAt : List Char → List Char → Bool
  | _, [] => true
  | [], _ :: _ => false
  | h :: hs, n :: ns =>
      if n = ' ' then (matchTokens (h :: hs) ns).isSome
      else ctoupper h = ctoupper n && tryAt hs ns
termination_by hay nee => (nee.length, hay.length, 0)

end

example : matchTokens "open source project".data "sour proj".data = some 5 := by
  simp [matchTokens, tryAt, ctoupper]
example : matchTokens "abc".data "xyz".data = none := by
  simp [matchTokens, tryAt, ctoupper]
example : matchTokens "ABC".data "abc".data = some 0 := by
  simp [matchTokens, tryAt, ctoupper]
example : matchTokens "abc".data "".data = some 0 := by
  simp [matchTokens, tryAt, ctoupper]
example : matchTokens "a".data "a ".data = none := by
  simp [matchTokens, tryAt, ctoupper]
example : matchTokens "xb".data " b".data = some 0 := by
  simp [matchTokens, tryAt, ctoupper]

theorem matchTokens_cons (h : Char) (hs : List Char) (n : Char) (ns : List Char) :
    matchTokens (h :: hs) (n :: ns) =
      if tryAt (h :: hs) (n :: ns) then some 0
      else (matchTokens hs (n :: ns)).map (· + 1) := by
  simp only [matchTokens]

theorem tryAt_cons (h : Char) (hs : List Char) (n : Char) (ns : List Char) :
    tryAt (h :: hs) (n :: ns) =
      if n = ' ' then (matchTokens (h :: hs) ns).isSome
      else ctoupper h = ctoupper n && tryAt hs ns := by
  simp only [tryAt]

/-- The outer `for` loop of `match_tokens`: a nonempty needle matches
somewhere iff the anchored attempt succeeds at some offset. -/
theorem matchTokens_isSome_iff (hay : List Char) (n : Char) (ns : List Char) :
    (matchTokens hay (n :: ns)).isSome = true ↔ ∃ p, tryAt (hay.drop p) (n :: ns) = true := by
  induction hay with
  | nil =>
    constructor
    · intro h; exact absurd h (by simp [matchTokens])
    · rintro ⟨p, hp⟩
      rw [List.drop_nil] at hp
      simp [tryAt] at hp
  | cons h hs ih =>
    rw [matchTokens_cons]
    by_cases htry : tryAt (h :: hs) (n :: ns) = true
    · rw [if_pos htry]
      exact ⟨fun _ => ⟨0, htry⟩, fun _ => rfl⟩
    · rw [if_neg htry]
      rw [Option.isSome_map']
      rw [ih]
      constructor
      · rintro ⟨p, hp⟩; exact ⟨p + 1, hp⟩
      · rintro ⟨p, hp⟩
        cases p with
        | zero => exact absurd hp htry
        | succ p => exact ⟨p, hp⟩

/-- Extending the needle can only make the anchored attempt harder:
if the greedy attempt succeeds for `nee ++ ext` it succeeds for `nee`. -/
theorem tryAt_append_mono :
    ∀ nee hs ext : List Char, tryAt hs (nee ++ ext) = true → tryAt hs nee = true := by
  intro nee
  induction nee with
  | nil => intro hs ext _; cases hs <;> simp [tryAt]
  | cons n ns ih =>
    intro hs ext htry
    cases hs with
    | nil => rw [List.cons_append] at htry; simp [tryAt] at htry
    | cons h hs' =>
      rw [List.cons_append, tryAt_cons] at htry
      rw [tryAt_cons]
      by_cases hsp : n = ' '
      · rw [if_pos hsp] at htry ⊢
        cases ns with
        | nil => simp [matchTokens]
        | cons m ms =>
          simp only [List.cons_append] at htry
          rw [matchTokens_isSome_iff] at htry
          obtain ⟨q, hq⟩ := htry
          rw [matchTokens_isSome_iff]
          exact ⟨q, ih _ ext hq⟩
      · rw [if_neg hsp] at htry ⊢
        simp only [Bool.and_eq_true] at htry ⊢
        exact ⟨htry.1, ih _ ext htry.2⟩

/-- Monotonicity of `match_tokens` in the needle: extending the filter text
never makes a hidden item visible. -/
theorem matchTokens_mono (hay nee ext : List Char)
    (h : (matchTokens hay (nee ++ ext)).isSome = true) :
    (matchTokens hay nee).isSome = true := by
  cases nee with
  | nil => simp [matchTokens]
  | cons n ns =>
    simp only [List.cons_append] at h
    rw [matchTokens_isSome_iff] at h
    rw [matchTokens_isSome_iff]
    obtain ⟨p, hp⟩ := h
    exact ⟨p, tryAt_append_mono _ _ _ hp⟩

/-- An item of the list store: text plus the `COL_VISIBLE` flag. -/
structure Item where
  text : List Char
  visible : Bool
  deriving DecidableEq, Repr

/-- The incremental branch of `refilter` (src/main.c:1678-1699 with
`filter_visible` true): only currently visible rows are re-evaluated
against the new filter text; hidden rows keep their flag. -/
def passVisibleOnly (fnew : List Char) (items : List Item) : List Item :=
  items.map fun it =>
    if it.visible then { it with visible := (matchTokens it.text fnew).isSome } else it

/-- The full-rescan branch of `refilter` (`filter_visible` false): every
row's flag is recomputed against the new filter text. -/
def passAll (fnew : List Char) (items : List Item) : List Item :=
  items.map fun it => { it with visible := (matchTokens it.text fnew).isSome }

/-- If every flag already reflects the filter text `f`, a full rescan against
`f` is the identity. -/
theorem passAll_of_flags (f : List Char) :
    ∀ items : List Item,
      (∀ it ∈ items, it.visible = (matchTokens it.text f).isSome) →
      passAll f items = items := by
  intro items hflags
  induction items with
  | nil => rfl
  | cons it its ih =>
    have h1 := hflags it (List.mem_cons_self it its)
    unfold passAll at ih ⊢
    simp only [List.map_cons, List.cons.injEq]
    constructor
    · cases it with
      | mk t v => simp only at h1; simp [h1]
    · exact ih fun x hx => hflags x (List.mem_cons_of_mem _ hx)

/-- Every flag produced by a full rescan reflects the filter text used. -/
theorem passAll_flags (f : List Char) (items : List Item) :
    ∀ it ∈ passAll f items, it.visible = (matchTokens it.text f).isSome := by
  intro it hit
  unfold passAll at hit
  obtain ⟨it0, _, rfl⟩ := List.mem_map.mp hit
  rfl

/-- One incremental pass for an extended filter text equals a full rescan,
provided the flags were computed by a completed pass for the old text. -/
theorem passVisibleOnly_eq_passAll (items : List Item) (fold fnew : List Char)
    (hpre : fold <+: fnew)
    (hflags : ∀ it ∈ items, it.visible = (matchTokens it.text fold).isSome) :
    passVisibleOnly fnew items = passAll fnew items := by
  obtain ⟨ext, rfl⟩ := hpre
  unfold passVisibleOnly passAll
  apply List.map_congr_left
  intro it hit
  by_cases hv : it.visible = true
  · rw [if_pos hv]
  · rw [if_neg hv]
    have h1 : it.visible = false := Bool.not_eq_true _ ▸ Bool.of_not_eq_true hv
    have h2 : (matchTokens it.text (fold ++ ext)).isSome = false := by
      cases h3 : (matchTokens it.text (fold ++ ext)).isSome
      · rfl
      · have h4 := matchTokens_mono it.text fold ext h3
        rw [hflags it hit] at h1
        rw [h1] at h4
        exact absurd h4 (by simp)
    cases it with
    | mk t v => simp only at h1 h2 ⊢; rw [h1, h2]

/-- C1: over any chain of extension-only filter-text changes, iterating the
incremental branch of `refilter` (re-evaluating only the items left visible
by the completed pass for the previous text) produces exactly the same
visibility flags as one full rescan against the final filter text. -/
theorem claim_C1 (items : List Item) (fold : List Char) (rest : List (List Char))
    (hchain : List.Chain (· <+: ·) fold rest)
    (hflags : ∀ it ∈ items, it.visible = (matchTokens it.text fold).isSome) :
    List.foldl (fun its f => passVisibleOnly f its) items rest =
      passAll ((fold :: rest).getLast (List.cons_ne_nil _ _)) items := by
  induction rest generalizing fold items with
  | nil =>
    simp only [List.foldl_nil, List.getLast_singleton]
    exact (passAll_of_flags fold items hflags).symm
  | cons f rs ih =>
    have hpre : fold <+: f := (List.chain_cons.mp hchain).1
    have hchain' : List.Chain (· <+: ·) f rs := (List.chain_cons.mp hchain).2
    have hstep : passVisibleOnly f items = passAll f items :=
      passVisibleOnly_eq_passAll items fold f hpre hflags
    have hlast : ((fold :: f :: rs).getLast (List.cons_ne_nil _ _)) =
        ((f :: rs).getLast (List.cons_ne_nil _ _)) :=
      List.getLast_cons (List.cons_ne_nil _ _)
    rw [List.foldl_cons, hstep, hlast,
        ih (passAll f items) f hchain' (passAll_flags f items)]
    unfold passAll
    rw [List.map_map]
    rfl

/-- Witness for C1 at a concrete store and filter chain `"a" → "ab"`. -/
theorem claim_C1_witness :
    List.foldl (fun its f => passVisibleOnly f its)
        [⟨"ab".data, true⟩, ⟨"b".data, false⟩] ["ab".data] =
      passAll (List.getLast ("a".data :: ["ab".data]) (List.cons_ne_nil _ _))
        [⟨"ab".data, true⟩, ⟨"b".data, false⟩] :=
  claim_C1 [⟨"ab".data, true⟩, ⟨"b".data, false⟩] "a".data ["ab".data]
    (List.Chain.cons ⟨['b'], rfl⟩ List.Chain.nil)
    (by intro it hit
        simp only [List.mem_cons, List.not_mem_nil, or_false] at hit
        rcases hit with rfl | rfl <;> simp [matchTokens, tryAt, ctoupper])

/-! ### C2: declarative token-matching semantics (the claim's reading) -/

/-- `tok` occurs, case-insensitively and contiguously, in `hay` starting at
offset `p`. -/
def occursAtB (hay tok : List Char) (p : Nat) : Bool :=
  decide (p + tok.length ≤ hay.length) &&
    decide (((hay.drop p).take tok.length).map ctoupper = tok.map ctoupper)

/-- Splitting the needle on single space characters into ordered tokens
(consecutive separators produce empty tokens). -/
def splitSp : List Char → List (List Char)
  | [] => [[]]
  | c :: rest =>
    if c = ' ' then [] :: splitSp rest
    else
      match splitSp rest with
      | t :: ts => (c :: t) :: ts
      | [] => [[c]]

/-- There are occurrences of the tokens in `hay`, in order, each starting at
or after `s` and at or after the end of the previous token's occurrence. -/
def witnessB (hay : List Char) : List (List Char) → Nat → Bool
  | [], _ => true
  | t :: ts, s =>
    (List.range (hay.length + 1)).any fun q =>
      decide (s ≤ q) && occursAtB hay t q && witnessB hay ts (q + t.length)

/-- Least `p` with `i ≤ p < i + b` satisfying `P`. -/
def findFrom (P : Nat → Bool) : Nat → Nat → Option Nat
  | 0, _ => none
  | b + 1, i => if P i then some i else findFrom P b (i + 1)

/-- The claim's declarative contract for `match_tokens`: the empty needle
matches at 0; otherwise the result is the smallest offset at which the first
token can start in an ordered, contiguous, case-insensitive witness for all
tokens, and `none` when no witness exists. -/
def specMatch (hay nee : List Char) : Option Nat :=
  if nee = [] then some 0
  else
    match splitSp nee with
    | [] => none
    | t :: ts =>
      findFrom (fun p => occursAtB hay t p && witnessB hay ts (p + t.length))
        (hay.length + 1) 0

/-- Does the needle end in a space character? -/
def endsSpace : List Char → Bool
  | [] => false
  | [c] => c = ' '
  | _ :: rest => endsSpace rest

example : specMatch "open source project".data "sour proj".data = some 5 := by decide
example : specMatch "a".data "a ".data = some 0 := by decide
example : specMatch "abc".data "xyz".data = none := by decide

theorem splitSp_ne_nil : ∀ l : List Char, splitSp l ≠ [] := by
  intro l
  cases l with
  | nil => simp [splitSp]
  | cons c rest =>
    unfold splitSp
    by_cases hc : c = ' '
    · simp [hc]
    · rw [if_neg hc]
      cases splitSp rest <;> simp

/-- Last token of a token list (`[]` when the list is empty). -/
def lastTok : List (List Char) → List Char
  | [] => []
  | [t] => t
  | _ :: t :: ts => lastTok (t :: ts)

theorem lastTok_cons (t : List Char) (ts : List (List Char)) (h : ts ≠ []) :
    lastTok (t :: ts) = lastTok ts := by
  cases ts with
  | nil => exact absurd rfl h
  | cons t' ts' => rfl

theorem endsSpace_cons (n : Char) (ns : List Char) (h : ns ≠ []) :
    endsSpace (n :: ns) = endsSpace ns := by
  cases ns with
  | nil => exact absurd rfl h
  | cons m ms => rfl

/-- A needle that does not end in a space splits into tokens whose last
token is nonempty. -/
theorem lastTok_splitSp : ∀ nee : List Char, nee ≠ [] → endsSpace nee = false →
    lastTok (splitSp nee) ≠ [] := by
  intro nee
  induction nee with
  | nil => intro h; exact absurd rfl h
  | cons c rest ih =>
    intro _ hsp
    cases rest with
    | nil =>
      have hc : ¬ c = ' ' := by
        intro hceq
        rw [hceq] at hsp
        simp [endsSpace] at hsp
      simp [splitSp, hc, lastTok]
    | cons d ds =>
      rw [endsSpace_cons c (d :: ds) (List.cons_ne_nil _ _)] at hsp
      have htail := ih (List.cons_ne_nil _ _) hsp
      unfold splitSp
      by_cases hc : c = ' '
      · rw [if_pos hc, lastTok_cons _ _ (splitSp_ne_nil _)]
        exact htail
      · rw [if_neg hc]
        rcases hsplit : splitSp (d :: ds) with _ | ⟨t, ts⟩
        · exact absurd hsplit (splitSp_ne_nil _)
        · rw [hsplit] at htail
          cases ts with
          | nil => simp [lastTok]
          | cons t' ts' =>
            rw [lastTok_cons _ _ (List.cons_ne_nil _ _)] at htail ⊢
            exact htail

theorem occursAtB_le (hay tok : List Char) (p : Nat)
    (h : occursAtB hay tok p = true) : p + tok.length ≤ hay.length := by
  unfold occursAtB at h
  simp only [Bool.and_eq_true, decide_eq_true_eq] at h
  exact h.1

theorem occursAtB_nil_tok (hay : List Char) (p : Nat) :
    occursAtB hay [] p = decide (p ≤ hay.length) := by
  unfold occursAtB
  simp

theorem occursAtB_cons (h : Char) (hs : List Char) (n : Char) (t : List Char) :
    occursAtB (h :: hs) (n :: t) 0 =
      (decide (ctoupper h = ctoupper n) && occursAtB hs t 0) := by
  unfold occursAtB
  simp only [List.drop_zero, List.length_cons, List.take_succ_cons, List.map_cons]
  rw [Bool.eq_iff_iff]
  simp only [Bool.and_eq_true, decide_eq_true_eq, List.cons.injEq]
  constructor
  · rintro ⟨hlen, hhd, htl⟩
    exact ⟨hhd, by omega, htl⟩
  · rintro ⟨hhd, hlen, htl⟩
    exact ⟨by omega, hhd, htl⟩

theorem occursAtB_shift (hay tok : List Char) (p q : Nat) (hp : p ≤ hay.length) :
    occursAtB hay tok (p + q) = occursAtB (hay.drop p) tok q := by
  unfold occursAtB
  rw [List.drop_drop, List.length_drop]
  rw [Bool.eq_iff_iff]
  simp only [Bool.and_eq_true, decide_eq_true_eq]
  constructor
  · rintro ⟨h1, h2⟩; exact ⟨by omega, h2⟩
  · rintro ⟨h1, h2⟩; exact ⟨by omega, h2⟩

theorem witnessB_cons (hay t : List Char) (ts : List (List Char)) (s : Nat) :
    witnessB hay (t :: ts) s =
      (List.range (hay.length + 1)).any fun q =>
        decide (s ≤ q) && occursAtB hay t q && witnessB hay ts (q + t.length) := rfl

theorem witnessB_exists (hay t : List Char) (ts : List (List Char)) (s : Nat) :
    witnessB hay (t :: ts) s = true ↔
      ∃ q, q ≤ hay.length ∧ s ≤ q ∧ occursAtB hay t q = true ∧
        witnessB hay ts (q + t.length) = true := by
  rw [witnessB_cons, List.any_eq_true]
  constructor
  · rintro ⟨q, hq, hpred⟩
    simp only [Bool.and_eq_true, decide_eq_true_eq] at hpred
    exact ⟨q, by have := List.mem_range.mp hq; omega, hpred.1.1, hpred.1.2, hpred.2⟩
  · rintro ⟨q, hqle, hs, hocc, hw⟩
    refine ⟨q, List.mem_range.mpr (by omega), ?_⟩
    rw [decide_eq_true hs, hocc, hw]
    rfl

/-- With a nonempty last token, no witness can start at or beyond the end of
the haystack. -/
theorem witnessB_ge (hay : List Char) :
    ∀ toks : List (List Char), toks ≠ [] → lastTok toks ≠ [] →
      ∀ s, hay.length ≤ s → witnessB hay toks s = false := by
  intro toks
  induction toks with
  | nil => intro h; exact absurd rfl h
  | cons t ts ih =>
    intro _ hlast s hs
    cases hw : witnessB hay (t :: ts) s
    · rfl
    · exfalso
      obtain ⟨q, hqle, hsq, hocc, hwts⟩ := (witnessB_exists hay t ts s).mp hw
      have hq : q = hay.length := by omega
      cases ts with
      | nil =>
        have ht : t ≠ [] := hlast
        have := occursAtB_le hay t q hocc
        have : t.length = 0 := by omega
        exact ht (List.length_eq_zero.mp this)
      | cons t' ts' =>
        have hlen := occursAtB_le hay t q hocc
        have hwf := ih (List.cons_ne_nil _ _)
          (by rw [lastTok_cons _ _ (List.cons_ne_nil _ _)] at hlast; exact hlast)
          (q + t.length) (by omega)
        rw [hwf] at hwts
        exact Bool.false_ne_true hwts

theorem witnessB_shift (hay : List Char) (p : Nat) (hp : p ≤ hay.length) :
    ∀ (toks : List (List Char)) (k : Nat),
      witnessB hay toks (p + k) = witnessB (hay.drop p) toks k := by
  intro toks
  induction toks with
  | nil => intro k; rfl
  | cons t ts ih =>
    intro k
    rw [Bool.eq_iff_iff, witnessB_exists, witnessB_exists]
    constructor
    · rintro ⟨q, hqle, hsq, hocc, hw⟩
      refine ⟨q - p, by rw [List.length_drop]; omega, by omega, ?_, ?_⟩
      · rw [← occursAtB_shift hay t p (q - p) hp, Nat.add_sub_cancel' (by omega)]
        exact hocc
      · rw [← ih (q - p + t.length)]
        rw [show p + (q - p + t.length) = q + t.length by omega]
        exact hw
    · rintro ⟨q, hqle, hsq, hocc, hw⟩
      rw [List.length_drop] at hqle
      refine ⟨p + q, by omega, by omega, ?_, ?_⟩
      · rw [occursAtB_shift hay t p q hp]; exact hocc
      · rw [show p + q + t.length = p + (q + t.length) by omega, ih (q + t.length)]
        exact hw

theorem findFrom_congr (P Q : Nat → Bool) :
    ∀ b i, (∀ p, i ≤ p → p < i + b → P p = Q p) → findFrom P b i = findFrom Q b i := by
  intro b
  induction b with
  | zero => intro i _; rfl
  | succ b ih =>
    intro i h
    unfold findFrom
    rw [h i (Nat.le_refl i) (by omega)]
    by_cases hq : Q i = true
    · rw [if_pos hq, if_pos hq]
    · rw [if_neg hq, if_neg hq]
      exact ih (i + 1) fun p hp1 hp2 => h p (by omega) (by omega)

theorem findFrom_shift (P : Nat → Bool) :
    ∀ b i, findFrom P b (i + 1) = (findFrom (fun j => P (j + 1)) b i).map (· + 1) := by
  intro b
  induction b with
  | zero => intro i; rfl
  | succ b ih =>
    intro i
    unfold findFrom
    by_cases hp : P (i + 1) = true
    · rw [if_pos hp, if_pos hp]; rfl
    · rw [if_neg hp, if_neg hp]
      exact ih (i + 1)

/-- The outer loop of `match_tokens` as a bounded least-offset search. -/
theorem matchTokens_eq_findFrom (hay : List Char) (n : Char) (ns : List Char) :
    matchTokens hay (n :: ns) =
      findFrom (fun p => tryAt (hay.drop p) (n :: ns)) (hay.length + 1) 0 := by
  induction hay with
  | nil => simp [matchTokens, findFrom, tryAt]
  | cons h hs ih =>
    rw [matchTokens_cons]
    unfold findFrom
    simp only [List.drop_zero, List.length_cons]
    by_cases htry : tryAt (h :: hs) (n :: ns) = true
    · rw [if_pos htry, if_pos htry]
    · rw [if_neg htry, if_neg htry, findFrom_shift, ih]
      rfl

/-- Anchored form of the claim's witness semantics: the first token occurs
exactly here and the remaining tokens follow in order. -/
def anchoredB : List (List Char) → List Char → Bool
  | [], _ => true
  | t :: ts, hs => occursAtB hs t 0 && witnessB hs ts t.length

theorem anchoredB_cons (t : List Char) (ts : List (List Char)) (hs : List Char) :
    anchoredB (t :: ts) hs = (occursAtB hs t 0 && witnessB hs ts t.length) := rfl

theorem splitSp_cons (c : Char) (rest : List Char) :
    splitSp (c :: rest) =
      if c = ' ' then [] :: splitSp rest
      else
        match splitSp rest with
        | t :: ts => (c :: t) :: ts
        | [] => [[c]] := rfl

theorem bridge_nil (hs : List Char) :
    tryAt hs [] = anchoredB (splitSp []) hs ∧
      (matchTokens hs []).isSome = witnessB hs (splitSp []) 0 := by
  constructor
  · simp only [tryAt, splitSp, anchoredB, witnessB, occursAtB_nil_tok]
    simp
  · simp only [matchTokens, Option.isSome_some]
    have h1 : witnessB hs (splitSp []) 0 = true := by
      unfold splitSp
      rw [witnessB_exists]
      exact ⟨0, Nat.zero_le _, Nat.le_refl 0,
        by rw [occursAtB_nil_tok]; exact decide_eq_true (Nat.zero_le _), rfl⟩
    rw [h1]

/-- Main bridge between the code's greedy matcher and the claim's witness
semantics, for needles that do not end in a space. -/
theorem bridge : ∀ (k : Nat) (nee : List Char), nee.length ≤ k →
    endsSpace nee = false →
    (∀ hs, tryAt hs nee = anchoredB (splitSp nee) hs) ∧
      (∀ hs, (matchTokens hs nee).isSome = witnessB hs (splitSp nee) 0) := by
  intro k
  induction k with
  | zero =>
    intro nee hlen _
    have : nee = [] := List.eq_nil_of_length_eq_zero (Nat.le_zero.mp hlen)
    subst this
    exact ⟨fun hs => (bridge_nil hs).1, fun hs => (bridge_nil hs).2⟩
  | succ k ih =>
    intro nee hlen hsp
    cases nee with
    | nil => exact ⟨fun hs => (bridge_nil hs).1, fun hs => (bridge_nil hs).2⟩
    | cons n ns =>
      have hlen' : ns.length ≤ k := by
        simp only [List.length_cons] at hlen; omega
      have hsp' : endsSpace ns = false := by
        cases ns with
        | nil => rfl
        | cons m ms => rw [endsSpace_cons n (m :: ms) (List.cons_ne_nil _ _)] at hsp; exact hsp
      obtain ⟨ihA, ihB⟩ := ih ns hlen' hsp'
      have hA : ∀ hs, tryAt hs (n :: ns) = anchoredB (splitSp (n :: ns)) hs := by
        intro hs
        by_cases hn : n = ' '
        · subst hn
          have hns : ns ≠ [] := by
            intro hns; subst hns; simp [endsSpace] at hsp
          have hsplit : splitSp (' ' :: ns) = [] :: splitSp ns := by
            rw [splitSp_cons, if_pos rfl]
          rw [hsplit]
          have hanch : anchoredB ([] :: splitSp ns) hs = witnessB hs (splitSp ns) 0 := by
            rw [anchoredB_cons, occursAtB_nil_tok, decide_eq_true (Nat.zero_le _)]
            simp
          rw [hanch]
          cases hs with
          | nil =>
            have h1 : tryAt [] (' ' :: ns) = false := by simp [tryAt]
            have h2 : witnessB [] (splitSp ns) 0 = false :=
              witnessB_ge [] (splitSp ns) (splitSp_ne_nil ns)
                (lastTok_splitSp ns hns hsp') 0 (Nat.le_refl 0)
            rw [h1, h2]
          | cons h hs' =>
            rw [tryAt_cons, if_pos rfl]
            exact ihB (h :: hs')
        · rcases hts : splitSp ns with _ | ⟨t, ts⟩
          · exact absurd hts (splitSp_ne_nil ns)
          · have hsplit : splitSp (n :: ns) = (n :: t) :: ts := by
              rw [splitSp_cons, if_neg hn, hts]
            rw [hsplit]
            cases hs with
            | nil =>
              have h1 : tryAt [] (n :: ns) = false := by simp [tryAt]
              have h2 : occursAtB [] (n :: t) 0 = false := by
                unfold occursAtB
                simp
              rw [anchoredB_cons, h1, h2, Bool.false_and]
            | cons h hs' =>
              rw [tryAt_cons, if_neg hn, ihA hs', hts]
              rw [anchoredB_cons, anchoredB_cons, occursAtB_cons]
              have h3 : witnessB (h :: hs') ts (n :: t).length = witnessB hs' ts t.length := by
                have h4 := witnessB_shift (h :: hs') 1 (by simp) ts t.length
                simp only [List.drop_succ_cons, List.drop_zero] at h4
                rw [List.length_cons, show t.length + 1 = 1 + t.length by omega, h4]
              rw [h3, Bool.and_assoc]
      refine ⟨hA, ?_⟩
      intro hs
      rcases hsplit : splitSp (n :: ns) with _ | ⟨t0, ts0⟩
      · exact absurd hsplit (splitSp_ne_nil _)
      · rw [Bool.eq_iff_iff, matchTokens_isSome_iff, witnessB_exists]
        constructor
        · rintro ⟨p, hp⟩
          have hple : p ≤ hs.length := by
            by_contra hgt
            rw [List.drop_eq_nil_of_le (by omega)] at hp
            simp [tryAt] at hp
          rw [hA (hs.drop p), hsplit] at hp
          rw [anchoredB_cons] at hp
          simp only [Bool.and_eq_true] at hp
          refine ⟨p, hple, Nat.zero_le _, ?_, ?_⟩
          · have := occursAtB_shift hs t0 p 0 hple
            rw [Nat.add_zero] at this
            rw [this]
            exact hp.1
          · rw [witnessB_shift hs p hple ts0 t0.length]
            exact hp.2
        · rintro ⟨q, hqle, _, hocc, hw⟩
          refine ⟨q, ?_⟩
          rw [hA (hs.drop q), hsplit, anchoredB_cons]
          have h1 : occursAtB (hs.drop q) t0 0 = true := by
            have := occursAtB_shift hs t0 q 0 hqle
            rw [Nat.add_zero] at this
            rw [← this]
            exact hocc
          have h2 : witnessB (hs.drop q) ts0 t0.length = true := by
            rw [← witnessB_shift hs q hqle ts0 t0.length]
            exact hw
          rw [h1, h2]
          rfl

/-- C2, corrected: for a needle that does not end in a space character,
`match_tokens` returns exactly the claim's contract — the least offset at
which the first token can start in an ordered, contiguous, case-insensitive
witness for all space-separated tokens, and `none` when no witness exists
(the empty needle matching at 0). -/
theorem claim_C2 (hay nee : List Char) (h : endsSpace nee = false) :
    matchTokens hay nee = specMatch hay nee := by
  cases nee with
  | nil => simp [matchTokens, specMatch]
  | cons n ns =>
    obtain ⟨hA, _⟩ := bridge (n :: ns).length (n :: ns) (Nat.le_refl _) h
    unfold specMatch
    rw [if_neg (by simp)]
    rcases hsplit : splitSp (n :: ns) with _ | ⟨t0, ts0⟩
    · exact absurd hsplit (splitSp_ne_nil _)
    · rw [matchTokens_eq_findFrom]
      apply findFrom_congr
      intro p hp0 hpb
      have hple : p ≤ hay.length := by omega
      rw [hA (hay.drop p), hsplit, anchoredB_cons]
      have h1 : occursAtB (hay.drop p) t0 0 = occursAtB hay t0 p := by
        have := occursAtB_shift hay t0 p 0 hple
        rw [Nat.add_zero] at this
        exact this.symm
      have h2 : witnessB (hay.drop p) ts0 t0.length = witnessB hay ts0 (p + t0.length) :=
        (witnessB_shift hay p hple ts0 t0.length).symm
      rw [h1, h2]

/-- Counterexample to C2 as stated: for haystack `"a"` and needle `"a "`
(which ends in a space, so its token list is `["a", ""]` and an ordered
witness exists at offset 0), the code returns `none` while the claim's
contract returns `some 0`. -/
theorem claim_C2_counterexample :
    matchTokens "a".data "a ".data = none ∧ specMatch "a".data "a ".data = some 0 :=
  ⟨by simp [matchTokens, tryAt, ctoupper], by decide⟩

/-- Witness for the corrected C2 at a concrete haystack and needle. -/
theorem claim_C2_witness :
    endsSpace "sour proj".data = false ∧
      matchTokens "open source project".data "sour proj".data =
        specMatch "open source project".data "sour proj".data :=
  ⟨by decide, claim_C2 "open source project".data "sour proj".data (by decide)⟩

/-! ### C3: filter text derivation (`get_filter_text`) -/

/-- Embedding of C `strstr`: offset of the first occurrence of `ns` in
`hs` (`some 0` for an empty needle), `none` when `ns` does not occur. -/
def strstrIdx : List Char → List Char → Option Nat
  | [], ns => if ns.isPrefixOf [] then some 0 else none
  | h :: hs', ns =>
    if ns.isPrefixOf (h :: hs') then some 0 else (strstrIdx hs' ns).map (· + 1)

theorem strstrIdx_le :
    ∀ hs ns : List Char, ∀ p, strstrIdx hs ns = some p → p + ns.length ≤ hs.length := by
  intro hs
  induction hs with
  | nil =>
    intro ns p h
    unfold strstrIdx at h
    by_cases hp : ns.isPrefixOf [] = true
    · rw [if_pos hp] at h
      cases h
      have := List.isPrefixOf_iff_prefix.mp hp
      simp [List.prefix_nil.mp this]
    · rw [if_neg hp] at h
      cases h
  | cons c hs' ih =>
    intro ns p h
    unfold strstrIdx at h
    by_cases hp : ns.isPrefixOf (c :: hs') = true
    · rw [if_pos hp] at h
      cases h
      have := (List.isPrefixOf_iff_prefix.mp hp).length_le
      simpa using this
    · rw [if_neg hp] at h
      rcases hq : strstrIdx hs' ns with _ | q
      · rw [hq] at h; cases h
      · rw [hq] at h
        cases h
        have := ih ns q hq
        simp only [List.length_cons]
        omega

theorem strstrIdx_prefix :
    ∀ hs ns : List Char, ∀ p, strstrIdx hs ns = some p → ns <+: hs.drop p := by
  intro hs
  induction hs with
  | nil =>
    intro ns p h
    unfold strstrIdx at h
    by_cases hp : ns.isPrefixOf [] = true
    · rw [if_pos hp] at h
      cases h
      exact List.isPrefixOf_iff_prefix.mp hp
    · rw [if_neg hp] at h; cases h
  | cons c hs' ih =>
    intro ns p h
    unfold strstrIdx at h
    by_cases hp : ns.isPrefixOf (c :: hs') = true
    · rw [if_pos hp] at h
      cases h
      exact List.isPrefixOf_iff_prefix.mp hp
    · rw [if_neg hp] at h
      rcases hq : strstrIdx hs' ns with _ | q
      · rw [hq] at h; cases h
      · rw [hq] at h
        cases h
        exact ih ns q hq

theorem strstrIdx_none :
    ∀ hs ns : List Char, strstrIdx hs ns = none → ∀ p, ¬ ns <+: hs.drop p := by
  intro hs
  induction hs with
  | nil =>
    intro ns h p hpre
    rw [List.drop_nil] at hpre
    rw [List.prefix_nil.mp hpre] at h
    simp [strstrIdx, List.isPrefixOf] at h
  | cons c hs' ih =>
    intro ns h p hpre
    unfold strstrIdx at h
    by_cases hp : ns.isPrefixOf (c :: hs') = true
    · rw [if_pos hp] at h; cases h
    · rw [if_neg hp] at h
      cases p with
      | zero =>
        rw [List.drop_zero] at hpre
        exact hp (List.isPrefixOf_iff_prefix.mpr hpre)
      | succ p =>
        rcases hq : strstrIdx hs' ns with _ | q
        · exact ih ns hq p hpre
        · rw [hq] at h; cases h

/-- Embedding of the `while ((a = strstr(filter_text, sep))) filter_text =
a + sep_len;` loop shared by `get_filter_text` and `item_select`: the index
just past the last (greedy, non-overlapping) occurrence of `sep`, or 0 when
`sep` is empty or absent. -/
def afterLastEnd (text sep : List Char) : Nat :=
  if hsep : sep = [] then 0
  else
    match hidx : strstrIdx text sep with
    | none => 0
    | some p =>
      p + sep.length + afterLastEnd (List.drop (p + sep.length) text) sep
termination_by text.length
decreasing_by
  have h1 := strstrIdx_le text sep p hidx
  have h2 : sep.length ≠ 0 := fun h => hsep (List.length_eq_zero.mp h)
  simp only [List.length_drop]
  omega

theorem afterLastEnd_nil_sep (text : List Char) : afterLastEnd text [] = 0 := by
  unfold afterLastEnd
  rw [dif_pos rfl]

theorem afterLastEnd_none (text sep : List Char) (h2 : strstrIdx text sep = none) :
    afterLastEnd text sep = 0 := by
  by_cases hsep : sep = []
  · rw [hsep, afterLastEnd_nil_sep]
  · unfold afterLastEnd
    rw [dif_neg hsep]
    split
    · rfl
    · rename_i p hp
      rw [h2] at hp
      cases hp

theorem afterLastEnd_some (text sep : List Char) (p : Nat) (hsep : sep ≠ [])
    (h2 : strstrIdx text sep = some p) :
    afterLastEnd text sep =
      p + sep.length + afterLastEnd (List.drop (p + sep.length) text) sep := by
  conv_lhs => rw [afterLastEnd.eq_def]
  rw [dif_neg hsep]
  split
  · rename_i hp
    rw [h2] at hp
    cases hp
  · rename_i q hq
    rw [h2] at hq
    cases hq
    rfl

theorem afterLastEnd_le :
    ∀ (n : Nat) (text sep : List Char), text.length ≤ n →
      afterLastEnd text sep ≤ text.length := by
  intro n
  induction n with
  | zero =>
    intro text sep hlen
    by_cases hsep : sep = []
    · rw [hsep, afterLastEnd_nil_sep]
      exact Nat.zero_le _
    · rcases hidx : strstrIdx text sep with _ | p
      · rw [afterLastEnd_none text sep hidx]
        exact Nat.zero_le _
      · have := strstrIdx_le text sep p hidx
        have hs0 : sep.length ≠ 0 := fun h => hsep (List.length_eq_zero.mp h)
        omega
  | succ n ih =>
    intro text sep hlen
    by_cases hsep : sep = []
    · rw [hsep, afterLastEnd_nil_sep]
      exact Nat.zero_le _
    · rcases hidx : strstrIdx text sep with _ | p
      · rw [afterLastEnd_none text sep hidx]
        exact Nat.zero_le _
      · rw [afterLastEnd_some text sep p hsep hidx]
        have h1 := strstrIdx_le text sep p hidx
        have hs0 : sep.length ≠ 0 := fun h => hsep (List.length_eq_zero.mp h)
        have h2 := ih (List.drop (p + sep.length) text) sep
          (by simp only [List.length_drop]; omega)
        simp only [List.length_drop] at h2
        omega

/-- When a separator occurrence was found, the reported end is at least
`sep.length` and a copy of `sep` ends exactly there. -/
theorem afterLastEnd_spec :
    ∀ (n : Nat) (text sep : List Char), text.length ≤ n →
      afterLastEnd text sep ≠ 0 →
      sep.length ≤ afterLastEnd text sep ∧
        sep <+: text.drop (afterLastEnd text sep - sep.length) := by
  intro n
  induction n with
  | zero =>
    intro text sep hlen hne
    exfalso
    by_cases hsep : sep = []
    · rw [hsep, afterLastEnd_nil_sep] at hne; exact hne rfl
    · rcases hidx : strstrIdx text sep with _ | p
      · rw [afterLastEnd_none text sep hidx] at hne; exact hne rfl
      · have := strstrIdx_le text sep p hidx
        have hs0 : sep.length ≠ 0 := fun h => hsep (List.length_eq_zero.mp h)
        omega
  | succ n ih =>
    intro text sep hlen hne
    by_cases hsep : sep = []
    · rw [hsep, afterLastEnd_nil_sep] at hne; exact absurd rfl hne
    · rcases hidx : strstrIdx text sep with _ | p
      · rw [afterLastEnd_none text sep hidx] at hne; exact absurd rfl hne
      · rw [afterLastEnd_some text sep p hsep hidx] at hne ⊢
        by_cases hrec : afterLastEnd (List.drop (p + sep.length) text) sep = 0
        · rw [hrec]
          constructor
          · omega
          · rw [show p + sep.length + 0 - sep.length = p by omega]
            exact strstrIdx_prefix text sep p hidx
        · have h1 := strstrIdx_le text sep p hidx
          have hs0 : sep.length ≠ 0 := fun h => hsep (List.length_eq_zero.mp h)
          obtain ⟨hl, hpre⟩ := ih (List.drop (p + sep.length) text) sep
            (by simp only [List.length_drop]; omega) hrec
          rw [List.drop_drop] at hpre
          constructor
          · omega
          · rw [show p + sep.length +
                afterLastEnd (List.drop (p + sep.length) text) sep - sep.length =
                p + sep.length +
                (afterLastEnd (List.drop (p + sep.length) text) sep - sep.length) by omega]
            exact hpre

/-- Embedding of `get_filter_text` (src/main.c:1357-1378): the entry text is
first advanced past the last occurrence of the output separator, then the
first `selStart` characters of that suffix are returned
(`g_strndup(filter_text, *from)`). -/
def get_filter_text (text : List Char) (selStart : Nat) (sep : List Char) : List Char :=
  (text.drop (afterLastEnd text sep)).take selStart

/-- The claim's reading of the filter text: the substring of the query text
before `selectionStart`, with everything up through the last occurrence of
the output separator in that substring stripped off. -/
def specFilterText (text : List Char) (selStart : Nat) (sep : List Char) : List Char :=
  (text.take selStart).drop (afterLastEnd (text.take selStart) sep)

/-- An occurrence of `sep` inside a prefix of `text` is an occurrence in
`text` itself. -/
theorem strstrIdx_take_none (text sep : List Char) (s : Nat)
    (h : strstrIdx text sep = none) : strstrIdx (text.take s) sep = none := by
  rcases h4 : strstrIdx (text.take s) sep with _ | q
  · rfl
  · exfalso
    have hp := strstrIdx_prefix _ _ _ h4
    rw [List.drop_take] at hp
    exact strstrIdx_none text sep h q (hp.trans (List.take_prefix _ _))

/-- C3, corrected: the claim's description (strip the separator inside the
prefix before the selection) agrees with `get_filter_text` when the
selection start is at the end of the text, or the separator is empty or
does not occur; `get_filter_text` itself takes the first `selectionStart`
characters of the suffix of the whole text after its last separator
occurrence. -/
theorem claim_C3 (text : List Char) (selStart : Nat) (sep : List Char)
    (h : selStart = text.length ∨ sep = [] ∨ strstrIdx text sep = none) :
    get_filter_text text selStart sep = specFilterText text selStart sep := by
  rcases h with h | h | h
  · subst h
    unfold get_filter_text specFilterText
    rw [List.take_length]
    apply List.take_of_length_le
    simp only [List.length_drop]
    omega
  · subst h
    unfold get_filter_text specFilterText
    rw [afterLastEnd_nil_sep, afterLastEnd_nil_sep]
    simp
  · unfold get_filter_text specFilterText
    rw [afterLastEnd_none text sep h,
        afterLastEnd_none _ sep (strstrIdx_take_none text sep selStart h)]
    simp

/-- Counterexample to C3 as stated: query `"ab, cd"` with separator `", "`
and selection start 1.  The code strips past the separator occurrence in the
whole text and returns `"c"`, while the claim's formula (strip within the
prefix before the caret) yields `"a"`. -/
theorem claim_C3_counterexample :
    get_filter_text "ab, cd".data 1 ", ".data ≠
      specFilterText "ab, cd".data 1 ", ".data := by
  have h1 : strstrIdx "ab, cd".data ", ".data = some 2 := by decide
  have h2 : strstrIdx (List.drop (2 + ", ".data.length) "ab, cd".data) ", ".data = none := by
    decide
  have h3 : strstrIdx ("ab, cd".data.take 1) ", ".data = none := by decide
  have e1 : afterLastEnd "ab, cd".data ", ".data = 4 := by
    rw [afterLastEnd_some _ _ 2 (by decide) h1, afterLastEnd_none _ _ h2]
    decide
  unfold get_filter_text specFilterText
  rw [e1, afterLastEnd_none _ _ h3]
  decide

/-- Witness for the corrected C3 with the caret at the end of the text. -/
theorem claim_C3_witness :
    (8 = "foo, bar".data.length ∨ ", ".data = [] ∨
        strstrIdx "foo, bar".data ", ".data = none) ∧
      get_filter_text "foo, bar".data 8 ", ".data =
        specFilterText "foo, bar".data 8 ", ".data :=
  ⟨Or.inl (by decide), claim_C3 "foo, bar".data 8 ", ".data (Or.inl (by decide))⟩

/-! ### C10: `unescape` allocation safety -/

/-- The character-processing loop of `unescape` (src/main.c:905-932):
`\n` and `\t` become newline and tab, `\x` becomes `x`, a backslash enters
escape mode without writing. -/
def unescapeAux : List Char → Bool → List Char
  | [], _ => []
  | c :: s, escape =>
    if escape then
      (if c = 'n' then '\n' else if c = 't' then '\t' else c) :: unescapeAux s false
    else if c = '\\' then unescapeAux s true
    else c :: unescapeAux s false

/-- Embedding of `unescape`: the characters written before the final NUL. -/
def unescape (str : List Char) : List Char := unescapeAux str false

/-- Number of bytes `unescape` writes into its `malloc(strlen(str))`
buffer: every produced character plus the terminating NUL byte. -/
def unescapeBytesWritten (str : List Char) : Nat := (unescape str).length + 1

/-- C10 is false of the code: on input `"a"` (no escapes at all) `unescape`
writes 2 bytes — the character and the terminating NUL — into the 1-byte
allocation `malloc(strlen("a"))`, exceeding it.  The code's own comment
("new string is not larger than original") shows the intended invariant;
the `malloc` size is missing the `+ 1` for the NUL. -/
theorem claim_C10 :
    unescapeBytesWritten "a".data = 2 ∧ "a".data.length = 1 := by decide

/-! ### C5/C6: ingestion pipeline (`read_items`) -/

/-- The stdio buffer capacity used by `read_items` (`BUFSIZ` of glibc). -/
def BUFSIZ : Nat := 8192

/-- State of the ingestion pipeline: the static accumulation buffer of
`read_items`, the appended items, `app->exit_code`, whether
`gtk_main_quit` was called, and the capacity value printed by the
`ERR_BUFFER_TOO_SMALL` diagnostic. -/
structure IngestState where
  buf : List Char
  items : List (List Char)
  exitCode : Nat
  halted : Bool
  reported : Option Nat
  deriving DecidableEq, Repr

/-- Initial state: empty static buffer, `app->exit_code = 1`. -/
def initIngest : IngestState := ⟨[], [], 1, false, none⟩

/-- Processing of one character read by `read_items` (src/main.c:1452-1477):
store it, flush an item when the buffer now ends with the input separator
(skipping empty items), and halt fatally when the post-flush buffer has
reached `BUFSIZ - 1` characters. -/
def stepChar (sep : List Char) (st : IngestState) (c : Char) : IngestState :=
  if st.halted then st
  else
    let buf1 := st.buf ++ [c]
    if sep ≠ [] ∧ sep.isSuffixOf buf1 then
      let item := buf1.take (buf1.length - sep.length)
      { st with buf := [],
                items := if item ≠ [] then st.items ++ [item] else st.items }
    else if BUFSIZ - 1 ≤ buf1.length then
      { st with buf := buf1, exitCode := 2, halted := true, reported := some BUFSIZ }
    else { st with buf := buf1 }

/-- Feeding a chunk of input characters through `read_items`. -/
def feedChars (sep : List Char) (st : IngestState) (input : List Char) : IngestState :=
  input.foldl (stepChar sep) st

/-- End-of-stream handling of `read_items`: flush any remaining non-empty
partial buffer content as one final item. -/
def finishStream (st : IngestState) : IngestState :=
  if st.halted then st
  else if st.buf ≠ [] then { st with items := st.items ++ [st.buf], buf := [] }
  else st

theorem stepChar_halted (sep : List Char) (st : IngestState) (c : Char)
    (h : st.halted = true) : stepChar sep st c = st := by
  unfold stepChar
  rw [if_pos h]

theorem feedChars_halted (sep : List Char) (input : List Char) :
    ∀ st : IngestState, st.halted = true → feedChars sep st input = st := by
  induction input with
  | nil => intro st _; rfl
  | cons c cs ih =>
    intro st h
    unfold feedChars
    rw [List.foldl_cons, stepChar_halted sep st c h]
    exact ih st h

theorem feedChars_append (sep : List Char) (st : IngestState) (xs ys : List Char) :
    feedChars sep st (xs ++ ys) = feedChars sep (feedChars sep st xs) ys := by
  unfold feedChars
  rw [List.foldl_append]

/-- Feeding characters that never complete a separator and stay under the
buffer bound just accumulates them. -/
theorem feedChars_no_flush (sep : List Char) :
    ∀ (input : List Char) (st : IngestState), st.halted = false →
      (∀ i < input.length, sep.isSuffixOf (st.buf ++ input.take (i + 1)) = false) →
      st.buf.length + input.length ≤ BUFSIZ - 2 →
      feedChars sep st input = { st with buf := st.buf ++ input } := by
  intro input
  induction input with
  | nil =>
    intro st _ _ _
    unfold feedChars
    rw [List.foldl_nil, List.append_nil]
  | cons c cs ih =>
    intro st hh hns hlen
    have hB : BUFSIZ = 8192 := rfl
    simp only [List.length_cons] at hlen
    have hstep : stepChar sep st c = { st with buf := st.buf ++ [c] } := by
      unfold stepChar
      rw [if_neg (by rw [hh]; exact Bool.false_ne_true)]
      have h0 := hns 0 (by simp)
      simp only [List.take_succ_cons, List.take_zero] at h0
      rw [if_neg (by rintro ⟨_, hsfx⟩; rw [h0] at hsfx; exact Bool.false_ne_true hsfx)]
      rw [if_neg (by simp only [List.length_append, List.length_singleton]; omega)]
    unfold feedChars
    rw [List.foldl_cons, hstep]
    have hrec := ih { st with buf := st.buf ++ [c] } hh
      (by intro i hi
          have h1 := hns (i + 1) (by simp only [List.length_cons]; omega)
          simp only [List.take_succ_cons] at h1
          simpa [List.append_assoc] using h1)
      (by simp only [List.length_append, List.length_singleton]; omega)
    unfold feedChars at hrec
    rw [hrec]
    simp [List.append_assoc]

/-- No flush happens strictly inside `part ++ sep`: every separator
occurrence in the stream is an item boundary. -/
def cleanPart (sep part : List Char) : Prop :=
  ∀ i < part.length + sep.length - 1,
    sep.isSuffixOf ((part ++ sep).take (i + 1)) = false

/-- Feeding one `part ++ sep` block from an empty buffer appends exactly the
part (unless empty) and leaves the buffer empty again. -/
theorem feedChars_part (sep part : List Char) (st : IngestState)
    (hsep : sep ≠ []) (hclean : cleanPart sep part)
    (hlen : part.length + sep.length ≤ BUFSIZ - 1)
    (hh : st.halted = false) (hbuf : st.buf = []) :
    feedChars sep st (part ++ sep) =
      { st with buf := [],
                items := if part ≠ [] then st.items ++ [part] else st.items } := by
  have hB : BUFSIZ = 8192 := rfl
  have hslen : 1 ≤ sep.length := by
    cases sep with
    | nil => exact absurd rfl hsep
    | cons a b => simp
  have hdecomp : part ++ sep = (part ++ sep.dropLast) ++ [sep.getLast hsep] := by
    rw [List.append_assoc, List.dropLast_append_getLast hsep]
  have hpre : part ++ sep.dropLast = (part ++ sep).take (part.length + sep.length - 1) := by
    rw [List.dropLast_eq_take,
        show part.length + sep.length - 1 = part.length + (sep.length - 1) by omega,
        List.take_append]
  rw [hdecomp, feedChars_append]
  have hfeed1 : feedChars sep st (part ++ sep.dropLast) =
      { st with buf := part ++ sep.dropLast } := by
    have := feedChars_no_flush sep (part ++ sep.dropLast) st hh
      (by intro i hi
          simp only [List.length_append, List.length_dropLast] at hi
          rw [hbuf, List.nil_append, hpre, List.take_take]
          rw [Nat.min_eq_left (by omega)]
          exact hclean i (by omega))
      (by rw [hbuf]
          simp only [List.length_nil, List.length_append, List.length_dropLast]
          omega)
    rw [this, hbuf, List.nil_append]
  rw [hfeed1]
  unfold feedChars
  rw [List.foldl_cons, List.foldl_nil]
  unfold stepChar
  rw [if_neg (by rw [show ({ st with buf := part ++ sep.dropLast } : IngestState).halted
        = st.halted from rfl, hh]; exact Bool.false_ne_true)]
  have hbuf1 : (part ++ sep.dropLast) ++ [sep.getLast hsep] = part ++ sep := hdecomp.symm
  simp only [hbuf1]
  rw [if_pos ⟨hsep, List.isSuffixOf_iff_suffix.mpr (List.suffix_append part sep)⟩]
  have hitem : (part ++ sep).take ((part ++ sep).length - sep.length) = part := by
    simp only [List.length_append]
    rw [show part.length + sep.length - sep.length = part.length by omega]
    exact List.take_left part sep
  rw [hitem]

/-- The byte stream built from separator-terminated parts plus trailing
content with no terminating separator. -/
def buildStream (sep : List Char) (parts : List (List Char)) (trailing : List Char) :
    List Char :=
  (parts.map (· ++ sep)).flatten ++ trailing

theorem feedChars_parts (sep : List Char) :
    ∀ (parts : List (List Char)) (st : IngestState),
      sep ≠ [] →
      (∀ part ∈ parts, cleanPart sep part ∧ part.length + sep.length ≤ BUFSIZ - 1) →
      st.halted = false → st.buf = [] →
      feedChars sep st ((parts.map (· ++ sep)).flatten) =
        { st with buf := [], items := st.items ++ parts.filter (· ≠ []) } := by
  intro parts
  induction parts with
  | nil =>
    intro st _ _ _ hbuf
    unfold feedChars
    rw [List.map_nil, List.flatten_nil, List.foldl_nil]
    cases st
    simp only at hbuf
    simp [hbuf]
  | cons part rest ih =>
    intro st hsep hparts hh hbuf
    rw [List.map_cons, List.flatten_cons, feedChars_append]
    obtain ⟨hclean, hlen⟩ := hparts part (List.mem_cons_self _ _)
    rw [feedChars_part sep part st hsep hclean hlen hh hbuf]
    have hrec := ih
      { st with buf := ([] : List Char),
                items := (if part ≠ [] then st.items ++ [part] else st.items) }
      hsep (fun p hp => hparts p (List.mem_cons_of_mem _ hp)) hh rfl
    rw [hrec]
    by_cases hp : part = []
    · subst hp
      simp [List.filter_cons]
    · simp [List.filter_cons, hp, List.append_assoc]

/-- C5: ingestion splits the byte stream into items at each occurrence of
the input separator: the separator is stripped, empty items are skipped,
items are appended in input order, the content after the last separator is
only buffered while feeding continues, and end-of-stream flushes a
non-empty partial buffer as one final item. -/
theorem claim_C5 (sep : List Char) (parts : List (List Char)) (trailing : List Char)
    (hsep : sep ≠ [])
    (hparts : ∀ part ∈ parts, cleanPart sep part ∧ part.length + sep.length ≤ BUFSIZ - 1)
    (htrail : ∀ i < trailing.length, sep.isSuffixOf (trailing.take (i + 1)) = false)
    (htlen : trailing.length ≤ BUFSIZ - 2) :
    (feedChars sep initIngest (buildStream sep parts trailing)).items =
        parts.filter (· ≠ []) ∧
      (feedChars sep initIngest (buildStream sep parts trailing)).buf = trailing ∧
      (feedChars sep initIngest (buildStream sep parts trailing)).halted = false ∧
      (finishStream (feedChars sep initIngest (buildStream sep parts trailing))).items =
        parts.filter (· ≠ []) ++ (if trailing ≠ [] then [trailing] else []) := by
  have h1 : feedChars sep initIngest ((parts.map (· ++ sep)).flatten) =
      ⟨[], parts.filter (· ≠ []), 1, false, none⟩ := by
    rw [feedChars_parts sep parts initIngest hsep hparts rfl rfl]
    rfl
  have h2 : feedChars sep (⟨[], parts.filter (· ≠ []), 1, false, none⟩ : IngestState)
      trailing = ⟨trailing, parts.filter (· ≠ []), 1, false, none⟩ := by
    rw [feedChars_no_flush sep trailing _ rfl
      (fun i hi => by simpa using htrail i hi) (by simpa using htlen)]
    rfl
  unfold buildStream
  rw [feedChars_append, h1, h2]
  refine ⟨rfl, rfl, rfl, ?_⟩
  unfold finishStream
  dsimp only
  rw [if_neg (fun h => Bool.false_ne_true h)]
  by_cases ht : trailing = []
  · subst ht
    rw [if_neg (fun h => h rfl)]
    simp
  · rw [if_pos ht]
    simp [ht]

instance (sep part : List Char) : Decidable (cleanPart sep part) := by
  unfold cleanPart
  exact inferInstance

/-- Witness for C5 at the spec's own example: feeding `"a\nb\nc"` with
separator `"\n"` yields items `["a", "b"]`, buffers `"c"`, and flushes
`"c"` only at end-of-stream. -/
theorem claim_C5_witness :
    buildStream "\n".data ["a".data, "b".data] "c".data = "a\nb\nc".data ∧
      (feedChars "\n".data initIngest
          (buildStream "\n".data ["a".data, "b".data] "c".data)).items =
        ["a".data, "b".data].filter (· ≠ []) ∧
      (feedChars "\n".data initIngest
          (buildStream "\n".data ["a".data, "b".data] "c".data)).buf = "c".data ∧
      (feedChars "\n".data initIngest
          (buildStream "\n".data ["a".data, "b".data] "c".data)).halted = false ∧
      (finishStream (feedChars "\n".data initIngest
          (buildStream "\n".data ["a".data, "b".data] "c".data))).items =
        ["a".data, "b".data].filter (· ≠ []) ++
          (if "c".data ≠ [] then ["c".data] else []) := by
  refine ⟨by decide, ?_⟩
  exact claim_C5 "\n".data ["a".data, "b".data] "c".data (by decide)
    (by decide) (by decide) (by decide)

/-- C6: if a single item accumulates `BUFSIZ` characters with no separator
found, ingestion halts fatally: exit code 2, the diagnostic reports the
capacity `BUFSIZ`, and no partial item is appended (also not at
end-of-stream). -/
theorem claim_C6 (sep input : List Char)
    (hlong : BUFSIZ ≤ input.length)
    (hnosep : ∀ i < input.length, sep.isSuffixOf (input.take (i + 1)) = false) :
    (feedChars sep initIngest input).exitCode = 2 ∧
      (feedChars sep initIngest input).halted = true ∧
      (feedChars sep initIngest input).reported = some BUFSIZ ∧
      (feedChars sep initIngest input).items = [] ∧
      (finishStream (feedChars sep initIngest input)).items = [] := by
  have hB : BUFSIZ = 8192 := rfl
  have hsplit : input = input.take (BUFSIZ - 2) ++ input.drop (BUFSIZ - 2) :=
    (List.take_append_drop _ _).symm
  have hAlen : (input.take (BUFSIZ - 2)).length = BUFSIZ - 2 := by
    rw [List.length_take]; omega
  have hBne : input.drop (BUFSIZ - 2) ≠ [] := by
    apply List.ne_nil_of_length_pos
    rw [List.length_drop]; omega
  obtain ⟨c, rest, hcons⟩ := List.exists_cons_of_ne_nil hBne
  have h1 : feedChars sep initIngest (input.take (BUFSIZ - 2)) =
      ⟨input.take (BUFSIZ - 2), [], 1, false, none⟩ := by
    rw [feedChars_no_flush sep _ initIngest rfl
      (by intro i hi
          rw [hAlen] at hi
          have h0 := hnosep i (by omega)
          have heq : (input.take (BUFSIZ - 2)).take (i + 1) = input.take (i + 1) := by
            rw [List.take_take, Nat.min_eq_left (by omega)]
          show sep.isSuffixOf ([] ++ (input.take (BUFSIZ - 2)).take (i + 1)) = false
          rw [List.nil_append, heq]
          exact h0)
      (by show ([] : List Char).length + (input.take (BUFSIZ - 2)).length ≤ BUFSIZ - 2
          rw [hAlen]; simp)]
    rfl
  have htake1 : input.take (BUFSIZ - 2 + 1) = input.take (BUFSIZ - 2) ++ [c] := by
    conv_lhs => rw [hsplit, hcons]
    rw [show BUFSIZ - 2 + 1 = (input.take (BUFSIZ - 2)).length + 1 by rw [hAlen],
        List.take_append]
    simp
  have h2 : stepChar sep (⟨input.take (BUFSIZ - 2), [], 1, false, none⟩ : IngestState) c =
      ⟨input.take (BUFSIZ - 2) ++ [c], [], 2, true, some BUFSIZ⟩ := by
    unfold stepChar
    dsimp only
    rw [if_neg (fun h => Bool.false_ne_true h)]
    have hflush : sep.isSuffixOf (input.take (BUFSIZ - 2) ++ [c]) = false := by
      have h3 := hnosep (BUFSIZ - 2) (by omega)
      rw [htake1] at h3
      exact h3
    rw [if_neg (by rintro ⟨_, hsfx⟩; rw [hflush] at hsfx; exact Bool.false_ne_true hsfx)]
    rw [if_pos (by simp only [List.length_append, List.length_singleton, hAlen]; omega)]
  have h4 : feedChars sep initIngest input =
      ⟨input.take (BUFSIZ - 2) ++ [c], [], 2, true, some BUFSIZ⟩ := by
    conv_lhs => rw [hsplit, hcons]
    rw [feedChars_append, h1]
    show feedChars sep (⟨input.take (BUFSIZ - 2), [], 1, false, none⟩ : IngestState)
      (c :: rest) = _
    unfold feedChars
    rw [List.foldl_cons, h2]
    exact feedChars_halted sep rest _ rfl
  rw [h4]
  refine ⟨rfl, rfl, rfl, rfl, ?_⟩
  unfold finishStream
  rw [if_pos rfl]

/-- A newline is never a suffix of a run of `'a'` characters. -/
theorem newline_not_suffix_replicate (m : Nat) :
    ("\n".data).isSuffixOf (List.replicate m 'a') = false := by
  cases h : List.isSuffixOf "\n".data (List.replicate m 'a')
  · rfl
  · exfalso
    have hs := List.isSuffixOf_iff_suffix.mp h
    have hm : '\n' ∈ List.replicate m 'a' := hs.subset (by simp)
    exact absurd (List.eq_of_mem_replicate hm) (by decide)

/-- Witness for C6: a single 8192-character item with no newline separator
halts ingestion fatally with exit code 2 and appends nothing. -/
theorem claim_C6_witness :
    BUFSIZ ≤ (List.replicate BUFSIZ 'a').length ∧
      ((feedChars "\n".data initIngest (List.replicate BUFSIZ 'a')).exitCode = 2 ∧
        (feedChars "\n".data initIngest (List.replicate BUFSIZ 'a')).halted = true ∧
        (feedChars "\n".data initIngest (List.replicate BUFSIZ 'a')).reported =
          some BUFSIZ ∧
        (feedChars "\n".data initIngest (List.replicate BUFSIZ 'a')).items = [] ∧
        (finishStream (feedChars "\n".data initIngest
            (List.replicate BUFSIZ 'a'))).items = []) :=
  ⟨by simp, claim_C6 "\n".data (List.replicate BUFSIZ 'a') (by simp)
    (fun i _ => by rw [List.take_replicate]; exact newline_not_suffix_replicate _)⟩

/-! ### C7: multi-select text merge (`item_select` / `append_item_text`) -/

/-- The `b - text` offset computed by `item_select` (src/main.c:1596-1608):
the start of the last separator occurrence, or 0 when the separator is
empty or absent (after the loop `b` is moved back by `sep_len`). -/
def lastSepStart (text sep : List Char) : Nat :=
  if afterLastEnd text sep = 0 then 0 else afterLastEnd text sep - sep.length

/-- Embedding of `append_item_text` (src/main.c:1562-1580): appends the
output separator first whenever the entry is currently non-empty. -/
def appendItemText (sep acc item : List Char) : List Char :=
  (if acc ≠ [] then acc ++ sep else acc) ++ item

/-- Embedding of the text manipulation of `item_select`
(src/main.c:1585-1641): delete from the start of the last separator
occurrence to the end, append every selected item via `append_item_text`,
select from just after that separator (or 0), and re-select from the end of
the original text when the original text is a prefix of the new text.
Returns the new entry text and the final selection start (selection always
extends to the end). -/
def mergeQuery (text sep : List Char) (selected : List (List Char)) :
    List Char × Nat :=
  let b := lastSepStart text sep
  let newText := selected.foldl (appendItemText sep) (text.take b)
  let sel0 := if b = 0 then 0 else b + sep.length
  (newText, if text <+: newText then text.length else sel0)

/-- The claim's reading of the merge: replace everything from the start of
the last separator-delimited segment (offset 0 when the separator does not
occur) with the selected items joined by the separator, and select exactly
the freshly inserted suffix. -/
def specMerge (text sep : List Char) (selected : List (List Char)) :
    List Char × Nat :=
  let e := afterLastEnd text sep
  (text.take e ++ List.intercalate sep selected, e)

theorem intercalate_cons_flatten (sep : List Char) :
    ∀ (s : List Char) (ss : List (List Char)),
      List.intercalate sep (s :: ss) = s ++ (ss.map (sep ++ ·)).flatten := by
  intro s ss
  induction ss generalizing s with
  | nil => simp [List.intercalate]
  | cons s' ss' ih =>
    have h1 : List.intercalate sep (s :: s' :: ss') =
        s ++ sep ++ List.intercalate sep (s' :: ss') := by
      unfold List.intercalate
      simp only [List.intersperse]
      rw [List.flatten_cons, List.flatten_cons, List.append_assoc]
    rw [h1, ih s', List.map_cons, List.flatten_cons]
    simp [List.append_assoc]

theorem foldl_appendItemText_ne (sep : List Char) :
    ∀ (selected : List (List Char)) (acc : List Char), acc ≠ [] →
      selected.foldl (appendItemText sep) acc =
        acc ++ (selected.map (sep ++ ·)).flatten := by
  intro selected
  induction selected with
  | nil => intro acc _; simp
  | cons s ss ih =>
    intro acc hacc
    rw [List.foldl_cons]
    have hstep : appendItemText sep acc s = (acc ++ sep) ++ s := by
      unfold appendItemText
      rw [if_pos hacc]
    rw [hstep, ih _ (by
          intro h
          rcases List.append_eq_nil.mp h with ⟨h1, _⟩
          rcases List.append_eq_nil.mp h1 with ⟨h2, _⟩
          exact hacc h2),
        List.map_cons, List.flatten_cons]
    simp [List.append_assoc]

theorem foldl_appendItemText_nil (sep : List Char) (s : List Char)
    (ss : List (List Char)) (hs : s ≠ []) :
    (s :: ss).foldl (appendItemText sep) [] = List.intercalate sep (s :: ss) := by
  rw [List.foldl_cons]
  have hstep : appendItemText sep [] s = s := by
    unfold appendItemText
    rw [if_neg (fun h => h rfl), List.nil_append]
  rw [hstep, foldl_appendItemText_ne sep ss s hs, intercalate_cons_flatten]

/-- The characters of `text` between `lastSepStart` and `afterLastEnd` are
exactly one copy of the separator. -/
theorem take_afterLastEnd (text sep : List Char)
    (h : sep.length < afterLastEnd text sep) :
    text.take (afterLastEnd text sep) =
      text.take (afterLastEnd text sep - sep.length) ++ sep := by
  obtain ⟨hle, hpre⟩ := afterLastEnd_spec text.length text sep (Nat.le_refl _)
    (by omega)
  obtain ⟨tl, htl⟩ := hpre
  have h1 : text.take ((afterLastEnd text sep - sep.length) + sep.length) =
      text.take (afterLastEnd text sep - sep.length) ++
        (text.drop (afterLastEnd text sep - sep.length)).take sep.length := by
    rw [← List.take_add]
  conv_lhs => rw [show afterLastEnd text sep =
        (afterLastEnd text sep - sep.length) + sep.length by omega]
  rw [h1, ← htl, List.take_left]

/-- C7, corrected: when the separator is nonempty, at least one (nonempty)
item is selected, the last separator occurrence (if any) does not start the
text, and the original text is not a prefix of the rewritten text, the
merge behaves as the claim states: it replaces everything from the start of
the last separator-delimited segment with the items joined by the
separator and selects exactly the inserted suffix. -/
theorem claim_C7 (text sep : List Char) (selected : List (List Char))
    (hsep : sep ≠ []) (hsel : selected ≠ [])
    (hne : ∀ s ∈ selected, s ≠ [])
    (hedge : afterLastEnd text sep = 0 ∨ sep.length < afterLastEnd text sep)
    (hover : ¬ text <+:
      (text.take (afterLastEnd text sep) ++ List.intercalate sep selected)) :
    mergeQuery text sep selected = specMerge text sep selected := by
  obtain ⟨s, ss, rfl⟩ := List.exists_cons_of_ne_nil hsel
  have hs : s ≠ [] := hne s (List.mem_cons_self _ _)
  unfold mergeQuery specMerge
  dsimp only
  rcases hedge with he | he
  · have hb : lastSepStart text sep = 0 := by unfold lastSepStart; rw [he]; simp
    have htext : (s :: ss).foldl (appendItemText sep) (text.take (lastSepStart text sep)) =
        text.take (afterLastEnd text sep) ++ List.intercalate sep (s :: ss) := by
      rw [hb, he, List.take_zero, List.nil_append,
          foldl_appendItemText_nil sep s ss hs]
    rw [htext]
    rw [if_neg hover, hb, he]
    simp
  · have he0 : afterLastEnd text sep ≠ 0 := by omega
    have hb : lastSepStart text sep = afterLastEnd text sep - sep.length := by
      unfold lastSepStart; rw [if_neg he0]
    have hble : afterLastEnd text sep ≤ text.length :=
      afterLastEnd_le text.length text sep (Nat.le_refl _)
    have hkept : text.take (lastSepStart text sep) ≠ [] := by
      apply List.ne_nil_of_length_pos
      rw [List.length_take, hb]
      have hs1 : 1 ≤ sep.length := by
        cases sep with
        | nil => exact absurd rfl hsep
        | cons a b => simp
      omega
    have htext : (s :: ss).foldl (appendItemText sep) (text.take (lastSepStart text sep)) =
        text.take (afterLastEnd text sep) ++ List.intercalate sep (s :: ss) := by
      rw [foldl_appendItemText_ne sep (s :: ss) _ hkept, hb,
          take_afterLastEnd text sep he, intercalate_cons_flatten,
          List.map_cons, List.flatten_cons]
      simp [List.append_assoc]
    rw [htext, if_neg hover, hb]
    have hs1 : 1 ≤ sep.length := by
      cases sep with
      | nil => exact absurd rfl hsep
      | cons a b => simp
    rw [if_neg (by omega)]
    simp only [Prod.mk.injEq]
    exact ⟨trivial, by omega⟩

/-- Counterexample to C7 as stated: query `", bar"` (the only separator
occurrence starts the text) with separator `", "` and selected items
`["baz", "qux"]`.  The code deletes from offset 0 and produces
`"baz, qux"` selected from 0, while the claim's formula keeps the leading
separator: `", baz, qux"` selected from 2. -/
theorem claim_C7_counterexample :
    mergeQuery ", bar".data ", ".data ["baz".data, "qux".data] ≠
      specMerge ", bar".data ", ".data ["baz".data, "qux".data] := by
  have e1 : afterLastEnd ", bar".data ", ".data = 2 := by
    rw [afterLastEnd_some _ _ 0 (by decide) (by decide),
        afterLastEnd_none _ _ (by decide)]
    decide
  unfold mergeQuery specMerge lastSepStart
  rw [e1]
  decide

/-- Witness for the corrected C7 at the spec's own example: query
`"foo, bar"`, separator `", "`, selected items `["baz", "qux"]`. -/
theorem claim_C7_witness :
    mergeQuery "foo, bar".data ", ".data ["baz".data, "qux".data] =
      specMerge "foo, bar".data ", ".data ["baz".data, "qux".data] :=
  claim_C7 "foo, bar".data ", ".data ["baz".data, "qux".data]
    (by decide) (by decide) (by decide)
    (by rw [afterLastEnd_some _ _ 3 (by decide) (by decide),
            afterLastEnd_none _ _ (by decide)]
        decide)
    (by rw [afterLastEnd_some _ _ 3 (by decide) (by decide),
            afterLastEnd_none _ _ (by decide)]
        decide)

/-! ### C4: inline completion (`refilter` completion scan + `item_select`) -/

/-- The per-item comparison of the completion scan in `refilter`
(src/main.c:1710-1717): `filter_text` is a case-sensitive strict prefix of
the item's text (`*a && !*b` after walking while `*a == *b`). -/
def strictPrefixCS (f t : List Char) : Bool :=
  f.isPrefixOf t && decide (f.length < t.length)

/-- The claim's comparison: case-insensitive strict prefix. -/
def ciStrictPrefix (f t : List Char) : Bool :=
  (f.map ctoupper).isPrefixOf (t.map ctoupper) && decide (f.length < t.length)

/-- The completion scan of `refilter` (src/main.c:1704-1731): iterate the
filtered view model — the visible items in store order — and pick the first
whose text has the filter text as a case-sensitive strict prefix. -/
def completionTarget (items : List Item) (f : List Char) : Option Item :=
  (items.filter (·.visible)).find? fun it => strictPrefixCS f it.text

/-- The claim's scan, with the case-insensitive comparison. -/
def specCompletionTarget (items : List Item) (f : List Char) : Option Item :=
  (items.filter (·.visible)).find? fun it => ciStrictPrefix f it.text

/-- One completion attempt of a filter pass: under the preconditions
(complete flag set, no selection, caret at the end of the query) scan for a
target item; on success the cursor moves to it, which runs `item_select`
with that single selected row, i.e. `mergeQuery` on the query. -/
def attemptComplete (query sep : List Char) (selStart selEnd : Nat)
    (complete : Bool) (items : List Item) : Option (List Char × Nat) :=
  if complete = true ∧ selStart = selEnd ∧ selStart = query.length then
    match completionTarget items (get_filter_text query selStart sep) with
    | some it => some (mergeQuery query sep [it.text])
    | none => none
  else none

theorem find_first {α : Type} (p : α → Bool) :
    ∀ (l : List α) (a : α), l.find? p = some a →
      p a = true ∧ ∃ pre post, l = pre ++ a :: post ∧ ∀ x ∈ pre, p x = false := by
  intro l
  induction l with
  | nil => intro a h; cases h
  | cons b l' ih =>
    intro a h
    by_cases hp : p b = true
    · rw [List.find?_cons_of_pos _ hp] at h
      cases h
      exact ⟨hp, [], l', rfl, by intro x hx; cases hx⟩
    · rw [List.find?_cons_of_neg _ (by simpa using hp)] at h
      obtain ⟨hpa, pre, post, hsplit, hpre⟩ := ih a h
      refine ⟨hpa, b :: pre, post, by rw [hsplit]; rfl, ?_⟩
      intro x hx
      rcases List.mem_cons.mp hx with rfl | hx'
      · simpa using hp
      · exact hpre x hx'

/-- C4, corrected (the comparison is case-sensitive, and the last
output-separator occurrence must not start the query text — `hedge`):
whenever a filter pass attempts completion — complete flag set, no
selection, caret at the end of the query — it picks the first visible item
in store order whose text has the filter text as a case-sensitive strict
prefix, inserts that item's remaining suffix at the caret and selects
exactly the inserted suffix, and no earlier visible item satisfies the
comparison.  When the last separator occurrence starts the query,
`item_select`'s rewrite instead drops the leading separator (second part of
the counterexample). -/
theorem claim_C4 (query sep : List Char) (items : List Item) (it : Item)
    (hfound : completionTarget items (get_filter_text query query.length sep) = some it)
    (hedge : afterLastEnd query sep = 0 ∨ sep.length < afterLastEnd query sep) :
    (it.visible = true ∧
      strictPrefixCS (get_filter_text query query.length sep) it.text = true ∧
      (∃ pre post, items.filter (·.visible) = pre ++ it :: post ∧
        ∀ x ∈ pre,
          strictPrefixCS (get_filter_text query query.length sep) x.text = false)) ∧
    attemptComplete query sep query.length query.length true items =
      some (query ++ it.text.drop (get_filter_text query query.length sep).length,
        query.length) := by
  obtain ⟨hp, pre, post, hsplit, hpre⟩ := find_first _ _ _ hfound
  have hvis : it.visible = true := by
    have hmem : it ∈ items.filter (·.visible) := by rw [hsplit]; simp
    exact List.of_mem_filter hmem
  refine ⟨⟨hvis, hp, pre, post, hsplit, hpre⟩, ?_⟩
  have hele : afterLastEnd query sep ≤ query.length :=
    afterLastEnd_le query.length query sep (Nat.le_refl _)
  have hfle : get_filter_text query query.length sep =
      query.drop (afterLastEnd query sep) := by
    unfold get_filter_text
    apply List.take_of_length_le
    rw [List.length_drop]
    omega
  have hsfx : get_filter_text query query.length sep ++
      it.text.drop (get_filter_text query query.length sep).length = it.text := by
    have hpfx : get_filter_text query query.length sep <+: it.text := by
      unfold strictPrefixCS at hp
      simp only [Bool.and_eq_true] at hp
      exact List.isPrefixOf_iff_prefix.mp hp.1
    obtain ⟨tl, htl⟩ := hpfx
    rw [← htl, List.drop_left]
  unfold attemptComplete
  rw [if_pos ⟨rfl, rfl, rfl⟩, hfound]
  have hmerge : mergeQuery query sep [it.text] =
      (query ++ it.text.drop (get_filter_text query query.length sep).length,
        query.length) := by
    unfold mergeQuery
    dsimp only
    rw [List.foldl_cons, List.foldl_nil]
    rcases hedge with he | he
    · have hb : lastSepStart query sep = 0 := by
        unfold lastSepStart; rw [he]; simp
      have hfq : get_filter_text query query.length sep = query := by
        rw [hfle, he, List.drop_zero]
      have hnew : appendItemText sep (query.take (lastSepStart query sep)) it.text =
          query ++ it.text.drop (get_filter_text query query.length sep).length := by
        rw [hb, List.take_zero]
        unfold appendItemText
        rw [if_neg (fun h => h rfl), List.nil_append]
        conv_lhs => rw [← hsfx]
        rw [hfq]
      rw [hnew, if_pos ⟨_, rfl⟩]
    · have he0 : afterLastEnd query sep ≠ 0 := by omega
      have hb : lastSepStart query sep = afterLastEnd query sep - sep.length := by
        unfold lastSepStart; rw [if_neg he0]
      have hsep : sep ≠ [] := by
        intro h
        rw [h, afterLastEnd_nil_sep] at he
        simp at he
      have hkept : query.take (lastSepStart query sep) ≠ [] := by
        apply List.ne_nil_of_length_pos
        rw [List.length_take, hb]
        have hs1 : 1 ≤ sep.length := by
          cases sep with
          | nil => exact absurd rfl hsep
          | cons a b => simp
        omega
      have hnew : appendItemText sep (query.take (lastSepStart query sep)) it.text =
          query ++ it.text.drop (get_filter_text query query.length sep).length := by
        unfold appendItemText
        rw [if_pos hkept, hb, ← take_afterLastEnd query sep he]
        conv_lhs => rw [← hsfx]
        rw [hfle, ← List.append_assoc, List.take_append_drop]
      rw [hnew, if_pos ⟨_, rfl⟩]
  dsimp only
  rw [hmerge]

/-- Counterexample to C4 as stated, in two parts.  First, with filter text
`"a"` and the single visible item `"Ab"`, the claimed case-insensitive
comparison matches, but the completion scan of `refilter` compares
case-sensitively (`*a == *b`) and finds nothing.  Second, when the last
separator occurrence starts the query — query `", ab"`, separator `", "`,
visible item `"abc"` — the scan matches (filter text `"ab"`) but the
rewrite produces `"abc"` selected from 0, not the claimed
insert-suffix-at-caret result `", abc"` with the suffix `"c"` selected. -/
theorem claim_C4_counterexample :
    (ciStrictPrefix "a".data "Ab".data = true ∧
      specCompletionTarget [⟨"Ab".data, true⟩] "a".data =
        some ⟨"Ab".data, true⟩ ∧
      completionTarget [⟨"Ab".data, true⟩] "a".data = none) ∧
    (attemptComplete ", ab".data ", ".data ", ab".data.length ", ab".data.length
        true [⟨"abc".data, true⟩] = some ("abc".data, 0) ∧
      ("abc".data, (0 : Nat)) ≠
        (", ab".data ++ "abc".data.drop
            (get_filter_text ", ab".data ", ab".data.length ", ".data).length,
          ", ab".data.length)) := by
  have e1 : afterLastEnd ", ab".data ", ".data = 2 := by
    rw [afterLastEnd_some _ _ 0 (by decide) (by decide),
        afterLastEnd_none _ _ (by decide)]
    decide
  have hf : get_filter_text ", ab".data ", ab".data.length ", ".data = "ab".data := by
    unfold get_filter_text
    rw [e1]
    decide
  have hct : completionTarget [⟨"abc".data, true⟩]
      (get_filter_text ", ab".data ", ab".data.length ", ".data) =
        some ⟨"abc".data, true⟩ := by
    rw [hf]; decide
  have hm : mergeQuery ", ab".data ", ".data ["abc".data] = ("abc".data, 0) := by
    unfold mergeQuery lastSepStart
    rw [e1]
    decide
  refine ⟨by decide, ?_, ?_⟩
  · unfold attemptComplete
    rw [if_pos ⟨rfl, rfl, rfl⟩, hct]
    dsimp only
    rw [hm]
  · rw [hf]
    decide

/-- Witness for the corrected C4: query `"a"`, a hidden item `"x"` and a
visible item `"ab"`; completion inserts `"b"` and selects it. -/
theorem claim_C4_witness :
    (Item.mk "ab".data true).visible = true ∧
      attemptComplete "a".data ", ".data "a".data.length "a".data.length true
          [⟨"x".data, false⟩, ⟨"ab".data, true⟩] =
        some ("a".data ++
            ("ab".data.drop
              (get_filter_text "a".data "a".data.length ", ".data).length),
          "a".data.length) := by
  have hf : get_filter_text "a".data "a".data.length ", ".data = "a".data := by
    unfold get_filter_text
    rw [afterLastEnd_none _ _ (by decide)]
    decide
  have hfound : completionTarget [⟨"x".data, false⟩, ⟨"ab".data, true⟩]
      (get_filter_text "a".data "a".data.length ", ".data) =
        some ⟨"ab".data, true⟩ := by
    rw [hf]; decide
  have hc := claim_C4 "a".data ", ".data [⟨"x".data, false⟩, ⟨"ab".data, true⟩]
    ⟨"ab".data, true⟩ hfound (Or.inl (afterLastEnd_none _ _ (by decide)))
  exact ⟨hc.1.1, hc.2⟩

/-! ### C8: debounce timer coalescing (`delayed_refilter` / `refilter`) -/

/-- Debounce bookkeeping: `app->filter_timer` (the handle), the set of
attached-and-not-destroyed timer sources, a fresh-id counter, the current
query text (`app->original_text`), and a log of performed refilter passes
with the query text each one used. -/
structure DebounceState where
  handle : Option Nat
  live : List Nat
  nextId : Nat
  queryText : List Char
  passes : List (List Char)
  deriving DecidableEq, Repr

def debInit : DebounceState := ⟨none, [], 0, [], []⟩

/-- Embedding of `delayed_refilter` (src/main.c:1740-1748): destroy any
still-pending timer source, then create and attach a new one. -/
def delayed_refilter (st : DebounceState) : DebounceState :=
  let live1 :=
    match st.handle with
    | some t => st.live.erase t
    | none => st.live
  { st with handle := some st.nextId, live := live1 ++ [st.nextId],
            nextId := st.nextId + 1 }

/-- A query edit: `text_changed` stores the new text and schedules the
delayed refilter. -/
def queryChanged (q : List Char) (st : DebounceState) : DebounceState :=
  delayed_refilter { st with queryText := q }

/-- The pending timer fires and runs `refilter`, which first destroys the
timer source and clears the handle (src/main.c:1658-1661) and then performs
one pass over the items using the current query text. -/
def timerFired (st : DebounceState) : DebounceState :=
  match st.handle with
  | none => st
  | some t =>
    { st with handle := none, live := st.live.erase t,
              passes := st.passes ++ [st.queryText] }

inductive DebEv
  | change (q : List Char)
  | fire
  deriving DecidableEq, Repr

def debStep (st : DebounceState) : DebEv → DebounceState
  | .change q => queryChanged q st
  | .fire => timerFired st

def debRun (evs : List DebEv) : DebounceState := evs.foldl debStep debInit

/-- The live timer sources are exactly the pending handle. -/
def debInv (st : DebounceState) : Prop :=
  st.live = match st.handle with
            | some t => [t]
            | none => []

theorem debInv_step (st : DebounceState) (e : DebEv) (h : debInv st) :
    debInv (debStep st e) := by
  cases e with
  | change q =>
    unfold debStep queryChanged delayed_refilter debInv
    unfold debInv at h
    cases hh : st.handle with
    | none => rw [hh] at h; simp [hh, h]
    | some t => rw [hh] at h; simp [hh, h, List.erase_cons_head]
  | fire =>
    unfold debStep timerFired debInv
    unfold debInv at h
    cases hh : st.handle with
    | none => rw [hh] at h; simp [hh, h]
    | some t => rw [hh] at h; simp [hh, h, List.erase_cons_head]

theorem debInv_run_aux :
    ∀ (evs : List DebEv) (st : DebounceState), debInv st →
      debInv (evs.foldl debStep st) := by
  intro evs
  induction evs with
  | nil => intro st h; exact h
  | cons e evs' ih =>
    intro st h
    rw [List.foldl_cons]
    exact ih _ (debInv_step st e h)

theorem debRun_inv (evs : List DebEv) : debInv (debRun evs) :=
  debInv_run_aux evs debInit rfl

theorem foldl_queryChanged_passes (qs : List (List Char)) :
    ∀ st : DebounceState,
      (qs.foldl (fun s q => queryChanged q s) st).passes = st.passes := by
  induction qs with
  | nil => intro st; rfl
  | cons q qs' ih =>
    intro st
    rw [List.foldl_cons, ih]
    rfl

theorem foldl_queryChanged_text (qs : List (List Char)) (hqs : qs ≠ []) :
    ∀ st : DebounceState,
      (qs.foldl (fun s q => queryChanged q s) st).queryText = qs.getLast hqs := by
  induction qs with
  | nil => exact absurd rfl hqs
  | cons q qs' ih =>
    intro st
    rw [List.foldl_cons]
    cases qs' with
    | nil => rfl
    | cons q' qs'' =>
      rw [ih (List.cons_ne_nil q' qs'') (queryChanged q st),
          List.getLast_cons (List.cons_ne_nil q' qs'')]

theorem foldl_queryChanged_handle (qs : List (List Char)) (hqs : qs ≠ []) :
    ∀ st : DebounceState,
      (qs.foldl (fun s q => queryChanged q s) st).handle =
        some ((qs.foldl (fun s q => queryChanged q s) st).nextId - 1) := by
  induction qs with
  | nil => exact absurd rfl hqs
  | cons q qs' ih =>
    intro st
    rw [List.foldl_cons]
    cases qs' with
    | nil => rfl
    | cons q' qs'' => exact ih (List.cons_ne_nil q' qs'') (queryChanged q st)

/-- C8: at most one debounce timer source is ever live (scheduling destroys
any pending one and the running pass clears the handle first), and any
burst of N query changes followed by one timer expiry produces exactly one
refilter pass, which uses only the final query text. -/
theorem claim_C8 (evs : List DebEv) (qs : List (List Char)) (hqs : qs ≠ []) :
    (debRun evs).live.length ≤ 1 ∧
      (qs.foldl (fun s q => queryChanged q s) (debRun evs)).passes =
        (debRun evs).passes ∧
      (timerFired (qs.foldl (fun s q => queryChanged q s) (debRun evs))).passes =
        (debRun evs).passes ++ [qs.getLast hqs] ∧
      (timerFired (qs.foldl (fun s q => queryChanged q s) (debRun evs))).live = [] := by
  have hinv := debRun_inv evs
  constructor
  · unfold debInv at hinv
    rw [hinv]
    cases (debRun evs).handle <;> simp
  refine ⟨foldl_queryChanged_passes qs (debRun evs), ?_, ?_⟩
  · unfold timerFired
    rw [foldl_queryChanged_handle qs hqs (debRun evs)]
    rw [foldl_queryChanged_passes qs (debRun evs),
        foldl_queryChanged_text qs hqs (debRun evs)]
  · have hinv2 : debInv (qs.foldl (fun s q => queryChanged q s) (debRun evs)) := by
      have : ∀ (qs' : List (List Char)) (st : DebounceState), debInv st →
          debInv (qs'.foldl (fun s q => queryChanged q s) st) := by
        intro qs'
        induction qs' with
        | nil => intro st h; exact h
        | cons q rest ih =>
          intro st h
          rw [List.foldl_cons]
          exact ih _ (debInv_step st (DebEv.change q) h)
      exact this qs (debRun evs) hinv
    unfold timerFired
    rw [foldl_queryChanged_handle qs hqs (debRun evs)]
    unfold debInv at hinv2
    rw [foldl_queryChanged_handle qs hqs (debRun evs)] at hinv2
    simp only
    rw [hinv2, List.erase_cons_head]

/-- Witness for C8: two rapid query changes `"a"`, `"ab"` then one timer
expiry on top of a reachable state produce exactly one pass for `"ab"`. -/
theorem claim_C8_witness :
    (debRun [DebEv.change "x".data]).live.length ≤ 1 ∧
      (["a".data, "ab".data].foldl (fun s q => queryChanged q s)
          (debRun [DebEv.change "x".data])).passes =
        (debRun [DebEv.change "x".data]).passes ∧
      (timerFired (["a".data, "ab".data].foldl (fun s q => queryChanged q s)
          (debRun [DebEv.change "x".data]))).passes =
        (debRun [DebEv.change "x".data]).passes ++
          [["a".data, "ab".data].getLast (by decide)] ∧
      (timerFired (["a".data, "ab".data].foldl (fun s q => queryChanged q s)
          (debRun [DebEv.change "x".data]))).live = [] :=
  claim_C8 [DebEv.change "x".data] ["a".data, "ab".data] (by decide)

/-! ### C9: the `complete` flag after deletions (`insert_text`/`delete_text`) -/

/-- The two flags of the completion state machine: `app->complete` and
`app->filter`. -/
structure EngineState where
  complete : Bool
  filter : Bool
  deriving DecidableEq, Repr

/-- Host events acting on the flags, as the handlers of src/main.c do:
`insert` is `insert_text` (re-arm on fresh insertion when filtering),
`delete` is `delete_text` (disarm when filtering), `refilterPass selOk
caretEnd` is the `app->complete = app->complete && from == to && len == to`
update of `refilter`, `appendItem selOk` is the `app->complete &= from ==
to` update of `append_item`, and `enableFilter`/`disableFilter` toggle
`app->filter`. -/
inductive EngEv
  | insert
  | delete
  | refilterPass (selOk caretEnd : Bool)
  | appendItem (selOk : Bool)
  | enableFilter
  | disableFilter
  deriving DecidableEq, Repr

def engStep (st : EngineState) : EngEv → EngineState
  | .insert => if st.filter then { st with complete := true } else st
  | .delete => if st.filter then { st with complete := false } else st
  | .refilterPass selOk caretEnd =>
    { st with complete := st.complete && selOk && caretEnd }
  | .appendItem selOk => { st with complete := st.complete && selOk }
  | .enableFilter => { st with filter := true }
  | .disableFilter => { st with filter := false }

theorem engStep_keeps_false (st : EngineState) (e : EngEv)
    (hne : e ≠ EngEv.insert) (h : st.complete = false) :
    (engStep st e).complete = false := by
  cases e with
  | insert => exact absurd rfl hne
  | delete =>
    simp only [engStep]
    by_cases hf : st.filter = true
    · rw [if_pos hf]
    · rw [if_neg hf]; exact h
  | refilterPass selOk caretEnd => simp only [engStep]; rw [h]; rfl
  | appendItem selOk => simp only [engStep]; rw [h]; rfl
  | enableFilter => exact h
  | disableFilter => exact h

/-- C9: a deletion from the entry while filtering is enabled clears the
`complete` flag, and it stays cleared across every later event that is not
a plain text insertion (filter passes and item ingestion only ever AND the
flag); a pass performed while a selection is active clears it as well. -/
theorem claim_C9 (st : EngineState) (evs : List EngEv)
    (hfilter : st.filter = true) (hnoins : ∀ e ∈ evs, e ≠ EngEv.insert) :
    (engStep st EngEv.delete).complete = false ∧
      (evs.foldl engStep (engStep st EngEv.delete)).complete = false ∧
      ∀ (st' : EngineState) (caretEnd : Bool),
        (engStep st' (EngEv.refilterPass false caretEnd)).complete = false := by
  have hdel : (engStep st EngEv.delete).complete = false := by
    simp only [engStep]
    rw [if_pos hfilter]
  refine ⟨hdel, ?_, ?_⟩
  · have haux : ∀ (evs' : List EngEv) (s : EngineState),
        (∀ e ∈ evs', e ≠ EngEv.insert) → s.complete = false →
        (evs'.foldl engStep s).complete = false := by
      intro evs'
      induction evs' with
      | nil => intro s _ h; exact h
      | cons e rest ih =>
        intro s hne h
        rw [List.foldl_cons]
        exact ih _ (fun x hx => hne x (List.mem_cons_of_mem _ hx))
          (engStep_keeps_false s e (hne e (List.mem_cons_self _ _)) h)
    exact haux evs _ hnoins hdel
  · intro st' caretEnd
    simp only [engStep]
    simp

/-- Witness for C9: after a deletion, a filter pass, an ingested item and a
focus change — but no insertion — the flag is still down. -/
theorem claim_C9_witness :
    (engStep ⟨true, true⟩ EngEv.delete).complete = false ∧
      ([EngEv.refilterPass true true, EngEv.appendItem true,
          EngEv.disableFilter].foldl engStep
        (engStep ⟨true, true⟩ EngEv.delete)).complete = false ∧
      ∀ (st' : EngineState) (caretEnd : Bool),
        (engStep st' (EngEv.refilterPass false caretEnd)).complete = false :=
  claim_C9 ⟨true, true⟩
    [EngEv.refilterPass true true, EngEv.appendItem true, EngEv.disableFilter]
    rfl (by decide)

end Sprinter
